import Mathlib

/-!
# Verification of the custom CSV codec (`src/csv_parser.py`)

Shallow embedding of `CustomCsvReader.__next__` and the `CustomCsvWriter`
methods (`_needs_quoting`, `_escape_field`, `writerow`), together with proofs
of the specified properties: the writer's quoting discipline, the reader's
state-machine behaviour on quotes / delimiters / line terminators, graceful
handling of malformed quoting, and the write-then-read round trip.

Characters are Lean `Char`s; a field is a `List Char`, a row a list of fields.
The input stream is modelled as the list of chunks successive `read(4096)`
calls return (an empty chunk models `read` returning `""`, i.e. end of input).
In the Python code the internal buffer is refilled only when it is empty, so
the buffer contents are always a suffix of a single chunk; the embedding
splits the loop accordingly into `processBuffer` (consuming the current
buffer) and `pullRows` (pulling further chunks), which reproduces the
chunk-boundary-sensitive lookahead behaviour of the source exactly.
-/

namespace Csv

/-- One CSV field, as the sequence of its characters. -/
abbrev Field := List Char

/-- One row: an ordered list of fields. -/
abbrev Row := List Field

/-- Persistent state of `CustomCsvReader`: the unread chunks of the source
(`fileobj`), the internal `buffer` (remainder of the chunk last pulled), and
the `eof` flag. -/
structure ReaderState where
  chunks : List (List Char)
  buffer : List Char
  eof : Bool
deriving Repr, DecidableEq

/-- Result of consuming the current buffer: either a completed row together
with the leftover buffer (`rowDone`, the `return row` in the source), or the
buffer ran out with the row/field accumulators and quote flag mid-flight
(`needMore`, the `if not self.buffer` refill point). -/
inductive StepResult where
  | rowDone (row : Row) (leftover : List Char)
  | needMore (row : Row) (field : Field) (inQuotes : Bool)
deriving Repr, DecidableEq

/-- The character-classification loop of `CustomCsvReader.__next__` restricted
to the current buffer (lines 59-85 of the source): consume characters one by
one, handling quote toggling, escaped quotes, delimiters and terminators,
until a row is returned or the buffer is exhausted. -/
def processBuffer (delim quote : Char) :
    List Char → Row → Field → Bool → StepResult
  | [], row, field, inQuotes => .needMore row field inQuotes
  | ch :: rest, row, field, inQuotes =>
    if ch = quote then
      if inQuotes = true then
        match rest with
        | c2 :: rest2 =>
          if c2 = quote then
            processBuffer delim quote rest2 row (field ++ [quote]) true
          else
            processBuffer delim quote (c2 :: rest2) row field false
        | [] => .needMore row field false
      else
        processBuffer delim quote rest row field true
    else if ch = delim ∧ inQuotes = false then
      processBuffer delim quote rest (row ++ [field]) [] false
    else if (ch = '\n' ∨ ch = '\r') ∧ inQuotes = false then
      .rowDone (row ++ [field])
        (if ch = '\r' ∧ rest.head? = some '\n' then rest.tail else rest)
    else
      processBuffer delim quote rest row (field ++ [ch]) inQuotes

/-- Finalisation at end of input (lines 50-56 of the source): if a field is in
progress (`current_field or in_quotes`) it becomes the last field of the row;
a non-empty row is returned, otherwise `StopIteration` (`none`). -/
def finishRow (row : Row) (field : Field) (inQuotes : Bool) : Option Row :=
  let row' := if field ≠ [] ∨ inQuotes = true then row ++ [field] else row
  if row' = [] then none else some row'

/-- The chunk-pulling side of the loop (lines 48-57): with the buffer empty,
`read(4096)` pulls the next chunk; an empty result sets `eof` and finalises,
otherwise the chunk becomes the buffer and consumption continues. -/
def pullRows (delim quote : Char) :
    List (List Char) → Bool → Row → Field → Bool → Option Row × ReaderState
  | [], _, row, field, inQuotes =>
    (finishRow row field inQuotes, ⟨[], [], true⟩)
  | c :: rest, eof, row, field, inQuotes =>
    if c = [] then
      (finishRow row field inQuotes, ⟨rest, [], true⟩)
    else
      match processBuffer delim quote c row field inQuotes with
      | .rowDone r leftover => (some r, ⟨rest, leftover, eof⟩)
      | .needMore row' field' inQ' => pullRows delim quote rest eof row' field' inQ'

/-- `CustomCsvReader.__next__`: produce the next row (or `none` for
`StopIteration`) together with the updated reader state. -/
def CustomCsvReader.next (delim quote : Char) (st : ReaderState) :
    Option Row × ReaderState :=
  if st.eof = true ∧ st.buffer = [] then (none, st)
  else
    match processBuffer delim quote st.buffer [] [] false with
    | .rowDone r leftover => (some r, ⟨st.chunks, leftover, st.eof⟩)
    | .needMore row field inQuotes =>
        pullRows delim quote st.chunks st.eof row field inQuotes

/-- The initial reader state over a source that will yield the given chunks. -/
def ReaderState.init (chunks : List (List Char)) : ReaderState :=
  ⟨chunks, [], false⟩

/-- `CustomCsvWriter._needs_quoting`: a field needs quoting iff it contains
the delimiter, the quote character, LF or CR. -/
def needs_quoting (delim quote : Char) (field : Field) : Bool :=
  field.contains delim || field.contains quote ||
    field.contains '\n' || field.contains '\r'

/-- `field.replace(quotechar, quotechar + quotechar)`: double every
occurrence of the quote character. -/
def doubleQuotes (quote : Char) (field : Field) : Field :=
  field.flatMap (fun c => if c = quote then [quote, quote] else [c])

/-- `CustomCsvWriter._escape_field`: wrap in quotes with internal quotes
doubled when quoting is needed, otherwise emit verbatim. -/
def escape_field (delim quote : Char) (field : Field) : Field :=
  if needs_quoting delim quote field then
    quote :: doubleQuotes quote field ++ [quote]
  else field

/-- `CustomCsvWriter.writerow`: escape every field, join with the delimiter,
and terminate with a single LF. -/
def writerow (delim quote : Char) (row : Row) : List Char :=
  List.intercalate [delim] (row.map (escape_field delim quote)) ++ ['\n']

/-! ## Step equations for `processBuffer`

One lemma per transition of the reader's character state machine, mirroring
the branch structure of `__next__`. -/

theorem processBuffer_nil (d q : Char) (row : Row) (field : Field) (inQ : Bool) :
    processBuffer d q [] row field inQ = .needMore row field inQ := rfl

theorem processBuffer_escaped_quote (d q : Char) (rest2 : List Char) (row : Row)
    (field : Field) :
    processBuffer d q (q :: q :: rest2) row field true
      = processBuffer d q rest2 row (field ++ [q]) true := by
  rw [processBuffer.eq_def]; simp

theorem processBuffer_close_quote {d q c2 : Char} (rest2 : List Char) (row : Row)
    (field : Field) (h : c2 ≠ q) :
    processBuffer d q (q :: c2 :: rest2) row field true
      = processBuffer d q (c2 :: rest2) row field false := by
  rw [processBuffer.eq_def]; simp [h]

theorem processBuffer_quote_at_end (d q : Char) (row : Row) (field : Field) :
    processBuffer d q [q] row field true = .needMore row field false := by
  rw [processBuffer.eq_def]; simp

theorem processBuffer_open_quote (d q : Char) (rest : List Char) (row : Row)
    (field : Field) :
    processBuffer d q (q :: rest) row field false
      = processBuffer d q rest row field true := by
  rw [processBuffer.eq_def]; simp

theorem processBuffer_delim {d q : Char} (rest : List Char) (row : Row)
    (field : Field) (h : d ≠ q) :
    processBuffer d q (d :: rest) row field false
      = processBuffer d q rest (row ++ [field]) [] false := by
  rw [processBuffer.eq_def]; simp [h]

theorem processBuffer_newline {d q c : Char} (rest : List Char) (row : Row)
    (field : Field) (hc : c = '\n' ∨ c = '\r') (hq : c ≠ q) (hd : c ≠ d) :
    processBuffer d q (c :: rest) row field false
      = .rowDone (row ++ [field])
          (if c = '\r' ∧ rest.head? = some '\n' then rest.tail else rest) := by
  rw [processBuffer.eq_def]
  rcases hc with rfl | rfl
  · simp [hq, hd, (by decide : ('\n' : Char) ≠ '\r')]
  · simp [hq, hd]

theorem processBuffer_append {d q c : Char} (rest : List Char) (row : Row)
    (field : Field) (inQ : Bool) (hq : c ≠ q) (hd : ¬(c = d ∧ inQ = false))
    (hn : ¬((c = '\n' ∨ c = '\r') ∧ inQ = false)) :
    processBuffer d q (c :: rest) row field inQ
      = processBuffer d q rest row (field ++ [c]) inQ := by
  rw [processBuffer.eq_def]; simp [hq, hd, hn]

/-! ## Consuming writer output -/

/-- A field with `needs_quoting` false has none of the four special
characters. -/
theorem not_needs_quoting {d q : Char} {f : Field}
    (h : needs_quoting d q f = false) :
    ∀ c ∈ f, c ≠ d ∧ c ≠ q ∧ c ≠ '\n' ∧ c ≠ '\r' := by
  simp [needs_quoting, List.contains, List.elem_iff] at h
  intro c hc
  refine ⟨?_, ?_, ?_, ?_⟩ <;> rintro rfl <;> tauto

/-- Outside quotes, a run of characters free of the delimiter, quote, LF and
CR is appended to the field verbatim. -/
theorem processBuffer_verbatim (d q : Char) :
    ∀ (f : Field), (∀ c ∈ f, c ≠ d ∧ c ≠ q ∧ c ≠ '\n' ∧ c ≠ '\r') →
      ∀ (rest : List Char) (row : Row) (acc : Field),
        processBuffer d q (f ++ rest) row acc false
          = processBuffer d q rest row (acc ++ f) false := by
  intro f
  induction f with
  | nil => intro _ rest row acc; simp
  | cons c cs ih =>
      intro hf rest row acc
      obtain ⟨hcd, hcq, hcn, hcr⟩ := hf c (List.mem_cons_self c cs)
      have hcs := fun x hx => hf x (List.mem_cons_of_mem c hx)
      rw [List.cons_append,
        processBuffer_append (cs ++ rest) row acc false hcq
          (by simp [hcd]) (by simp [hcn, hcr]),
        ih hcs rest row (acc ++ [c])]
      simp

/-- Inside quotes, the quote-doubled encoding of a field is decoded back to
the field: every non-quote character (delimiters and terminators included) is
appended literally, and each doubled quote yields one literal quote. -/
theorem processBuffer_quoted (d q : Char) :
    ∀ (f : Field) (rest : List Char) (row : Row) (acc : Field),
      processBuffer d q (doubleQuotes q f ++ rest) row acc true
        = processBuffer d q rest row (acc ++ f) true := by
  intro f
  induction f with
  | nil => intro rest row acc; simp [doubleQuotes]
  | cons c cs ih =>
      intro rest row acc
      by_cases hc : c = q
      · have hb : doubleQuotes q (c :: cs) ++ rest
            = q :: q :: (doubleQuotes q cs ++ rest) := by
          simp [doubleQuotes, hc]
        rw [hb, processBuffer_escaped_quote, ih rest row (acc ++ [q])]
        simp [hc]
      · have hb : doubleQuotes q (c :: cs) ++ rest
            = c :: (doubleQuotes q cs ++ rest) := by
          simp [doubleQuotes, hc]
        rw [hb,
          processBuffer_append (doubleQuotes q cs ++ rest) row acc true hc
            (by simp) (by simp),
          ih rest row (acc ++ [c])]
        simp

/-- Consuming one escaped field: starting a fresh field outside quotes, the
writer's escaping of `f` is parsed back to exactly `f`, provided the next
character after the escaped field (if any) is not the quote character. -/
theorem processBuffer_escape (d q : Char) (f : Field) (rest : List Char)
    (row : Row) (hrest : rest.head? ≠ some q) :
    processBuffer d q (escape_field d q f ++ rest) row [] false
      = processBuffer d q rest row f false := by
  unfold escape_field
  by_cases hq : needs_quoting d q f = true
  · rw [if_pos hq]
    have hb : (q :: doubleQuotes q f ++ [q]) ++ rest
        = q :: (doubleQuotes q f ++ ([q] ++ rest)) := by simp
    rw [hb, processBuffer_open_quote, processBuffer_quoted]
    cases rest with
    | nil => simp [processBuffer_quote_at_end, processBuffer_nil]
    | cons r2 rs =>
        have hr2 : r2 ≠ q := by
          intro hh; exact hrest (by simp [hh])
        simp only [List.singleton_append]
        rw [processBuffer_close_quote rs row ([] ++ f) hr2]
        simp
  · rw [if_neg hq]
    have hf := not_needs_quoting (Bool.not_eq_true _ ▸ hq)
    have := processBuffer_verbatim d q f hf rest row []
    simpa using this

theorem intercalate_pair (d : Char) (x z : List Char) (y : List (List Char)) :
    List.intercalate [d] (x :: z :: y) = x ++ d :: List.intercalate [d] (z :: y) := by
  simp [List.intercalate, List.intersperse]

theorem intercalate_one (d : Char) (x : List Char) :
    List.intercalate [d] [x] = x := by
  simp [List.intercalate]

/-- Consuming the full serialized form of a non-empty row (escaped fields
joined by the delimiter, closed by LF) returns exactly that row, appended to
whatever row prefix was already accumulated. -/
theorem processBuffer_writerow_body (d q : Char)
    (hdq : d ≠ q) (hdn : d ≠ '\n') (hqn : q ≠ '\n') :
    ∀ (fs : Row), fs ≠ [] → ∀ (row : Row),
      processBuffer d q
          (List.intercalate [d] (fs.map (escape_field d q)) ++ ['\n']) row [] false
        = .rowDone (row ++ fs) [] := by
  intro fs
  induction fs with
  | nil => intro h; exact absurd rfl h
  | cons f gs ih =>
      intro _ row
      cases gs with
      | nil =>
          rw [List.map_cons, List.map_nil, intercalate_one,
            processBuffer_escape d q f ['\n'] row
              (by simp; exact fun h => hqn h.symm),
            processBuffer_newline [] row f (Or.inl rfl)
              (fun h => hqn h.symm) (fun h => hdn h.symm)]
          simp
      | cons g gs2 =>
          simp only [List.map_cons] at ih ⊢
          rw [intercalate_pair, List.append_assoc, List.cons_append,
            processBuffer_escape d q f
              (d :: (List.intercalate [d]
                (escape_field d q g :: gs2.map (escape_field d q)) ++ ['\n']))
              row (by simp [hdq]),
            processBuffer_delim _ row f hdq,
            ih (by simp) (row ++ [f])]
          simp

/-- Claim C1 (round-trip): serializing any non-empty row with `writerow` and
parsing the produced text with the reader's next-row operation reproduces the
identical sequence of fields, including fields containing the quote
character, the delimiter, or embedded newlines, under the spec's invariant
that delimiter and quote character are distinct from each other and from the
line terminators CR and LF. -/
theorem writerow_next_roundtrip (d q : Char) (row : Row)
    (hdq : d ≠ q) (hdn : d ≠ '\n') (_hdr : d ≠ '\r')
    (hqn : q ≠ '\n') (_hqr : q ≠ '\r') (hrow : row ≠ []) :
    (CustomCsvReader.next d q (ReaderState.init [writerow d q row])).1
      = some row := by
  have hne : writerow d q row ≠ [] := by simp [writerow]
  rw [CustomCsvReader.next]
  rw [if_neg (by simp [ReaderState.init])]
  simp only [ReaderState.init, processBuffer_nil]
  rw [pullRows, if_neg hne, writerow,
    processBuffer_writerow_body d q hdq hdn hqn row hrow []]
  simp

/-- Witness for C1 at the concrete row `["a,b", "he said \"hi\"", "x"]` with
the default delimiter and quote character. -/
theorem writerow_next_roundtrip_witness :
    (CustomCsvReader.next ',' '"'
        (ReaderState.init [writerow ',' '"'
          [['a', ',', 'b'], ['h', 'e', '"', 'h', 'i', '"'], ['x']]])).1
      = some [['a', ',', 'b'], ['h', 'e', '"', 'h', 'i', '"'], ['x']] :=
  writerow_next_roundtrip ',' '"' [['a', ',', 'b'], ['h', 'e', '"', 'h', 'i', '"'], ['x']]
    (by decide) (by decide) (by decide) (by decide) (by decide) (by decide)

/-- Field transformation following the wording of the spec (§4.2): a field is
wrapped in one quote character on each side with every internal occurrence of
the quote character doubled if and only if it contains the delimiter, the
quote character, CR, or LF; otherwise it is emitted verbatim. For comparison
with `escape_field`. -/
def transformFieldSpec (delim quote : Char) (field : Field) : Field :=
  if delim ∈ field ∨ quote ∈ field ∨ '\r' ∈ field ∨ '\n' ∈ field then
    [quote] ++ (field.flatMap fun c => if c = quote then [quote, quote] else [c])
      ++ [quote]
  else field

/-- Row serialization following the wording of the spec (§4.2): transformed
fields joined by the configured delimiter, followed by a single LF. For
comparison with `writerow`. -/
def writerowSpec (delim quote : Char) (row : Row) : List Char :=
  List.intercalate [delim] (row.map (transformFieldSpec delim quote)) ++ ['\n']

/-- Claim C2: `writerow` emits exactly the fields each transformed as the
spec describes (quote-wrapped with doubled internal quotes iff the field
contains the delimiter, quote character, CR, or LF, verbatim otherwise),
joined by the configured delimiter and followed by a single LF. -/
theorem writerow_eq_writerowSpec (d q : Char) (row : Row) :
    writerow d q row = writerowSpec d q row := by
  have h : ∀ f : Field, escape_field d q f = transformFieldSpec d q f := by
    intro f
    have hq : needs_quoting d q f = true
        ↔ (d ∈ f ∨ q ∈ f ∨ '\r' ∈ f ∨ '\n' ∈ f) := by
      simp [needs_quoting, List.contains, List.elem_iff]
      tauto
    by_cases hc : needs_quoting d q f = true
    · rw [escape_field, if_pos hc, transformFieldSpec, if_pos (hq.mp hc)]
      simp [doubleQuotes]
    · rw [escape_field, if_neg hc, transformFieldSpec,
        if_neg (fun hh => hc (hq.mpr hh))]
  rw [writerow, writerowSpec, List.map_congr_left (fun f _ => h f)]

/-- Claim C3: inside a quoted region every non-quote character — delimiter
and line terminators included — is appended literally to the current field
and neither closes the field nor ends the row; hence `"a,b",c` followed by LF
parses to the single row `["a,b", "c"]`, and a quoted field with an embedded
newline (`"line1\nline2",x`) stays one row with the newline preserved. -/
theorem inQuotes_appends_literally :
    (∀ (d q c : Char) (rest : List Char) (row : Row) (field : Field),
        c ≠ q →
        processBuffer d q (c :: rest) row field true
          = processBuffer d q rest row (field ++ [c]) true)
    ∧ CustomCsvReader.next ',' '"'
        (ReaderState.init [['"', 'a', ',', 'b', '"', ',', 'c', '\n']])
      = (some [['a', ',', 'b'], ['c']], ⟨[], [], false⟩)
    ∧ CustomCsvReader.next ',' '"'
        (ReaderState.init
          [['"', 'l', 'i', 'n', 'e', '1', '\n', 'l', 'i', 'n', 'e', '2', '"',
            ',', 'x', '\n']])
      = (some [['l', 'i', 'n', 'e', '1', '\n', 'l', 'i', 'n', 'e', '2'], ['x']],
         ⟨[], [], false⟩)
    ∧ (CustomCsvReader.next ',' '"' ⟨[], [], false⟩).1 = none := by
  refine ⟨?_, by decide, by decide, by decide⟩
  intro d q c rest row field hc
  exact processBuffer_append rest row field true hc (by simp) (by simp)

/-- Witness for C3's universally quantified conjunct: a comma inside quotes
is appended literally. -/
theorem inQuotes_appends_literally_witness :
    processBuffer ',' '"' [','] [] [] true
      = processBuffer ',' '"' [] [] [','] true :=
  inQuotes_appends_literally.1 ',' '"' ',' [] [] [] (by decide)

/-- Claim C4: a CR or LF outside quotes closes the current field and returns
the completed row immediately; after a CR, a buffered LF is also consumed
(CRLF is one terminator) while otherwise the buffer is left as is, so a lone
LF or a lone CR each terminate a row on their own. Concretely,
`a,b\r\nc,d\n` parses to exactly the two rows `["a","b"]` and `["c","d"]`,
and a lone CR in `a\rb\n` already ends the first row. -/
theorem terminator_closes_row :
    (∀ (d q c : Char) (rest : List Char) (row : Row) (field : Field),
        (c = '\n' ∨ c = '\r') → c ≠ q → c ≠ d →
        processBuffer d q (c :: rest) row field false
          = .rowDone (row ++ [field])
              (if c = '\r' ∧ rest.head? = some '\n' then rest.tail else rest))
    ∧ CustomCsvReader.next ',' '"'
        (ReaderState.init [['a', ',', 'b', '\r', '\n', 'c', ',', 'd', '\n']])
      = (some [['a'], ['b']], ⟨[], ['c', ',', 'd', '\n'], false⟩)
    ∧ CustomCsvReader.next ',' '"' ⟨[], ['c', ',', 'd', '\n'], false⟩
      = (some [['c'], ['d']], ⟨[], [], false⟩)
    ∧ (CustomCsvReader.next ',' '"' ⟨[], [], false⟩).1 = none
    ∧ CustomCsvReader.next ',' '"' (ReaderState.init [['a', '\r', 'b', '\n']])
      = (some [['a']], ⟨[], ['b', '\n'], false⟩) := by
  refine ⟨?_, by decide, by decide, by decide, by decide⟩
  intro d q c rest row field hc hq hd
  exact processBuffer_newline rest row field hc hq hd

/-- Witness for C4's universally quantified conjunct: LF outside quotes
returns the row at once. -/
theorem terminator_closes_row_witness :
    processBuffer ',' '"' ['\n', 'x'] [['a']] ['b'] false
      = .rowDone [['a'], ['b']]
          (if '\n' = '\r' ∧ ['x'].head? = some '\n' then ['x'].tail else ['x']) :=
  terminator_closes_row.1 ',' '"' '\n' ['x'] [['a']] ['b']
    (by decide) (by decide) (by decide)

/-- Claim C5: when the source is exhausted without a trailing terminator, any
in-progress field or row is still returned as a final row, and only
afterwards is end-of-input reported: `a,b,c` with no trailing newline yields
exactly the row `["a","b","c"]`, then `StopIteration`. -/
theorem final_unterminated_row :
    (∀ (d q : Char) (eof : Bool) (row : Row) (field : Field) (inQuotes : Bool),
        row ≠ [] ∨ field ≠ [] ∨ inQuotes = true →
        pullRows d q [] eof row field inQuotes
          = (some (if field ≠ [] ∨ inQuotes = true then row ++ [field] else row),
             ⟨[], [], true⟩))
    ∧ CustomCsvReader.next ',' '"' (ReaderState.init [['a', ',', 'b', ',', 'c']])
      = (some [['a'], ['b'], ['c']], ⟨[], [], true⟩)
    ∧ (CustomCsvReader.next ',' '"' ⟨[], [], true⟩).1 = none := by
  refine ⟨?_, by decide, by decide⟩
  intro d q eof row field inQuotes h
  rw [pullRows, finishRow]
  by_cases hf : field ≠ [] ∨ inQuotes = true
  · rw [if_pos hf, if_neg (by simp)]
  · rw [if_neg hf, if_neg (show ¬row = [] by
      rcases h with h | h
      · exact h
      · exact absurd h hf)]

/-- Witness for C5's universally quantified conjunct: a mid-row state at end
of input still yields its row. -/
theorem final_unterminated_row_witness :
    pullRows ',' '"' [] false [['a']] ['b'] false
      = (some (if (['b'] : Field) ≠ [] ∨ false = true
            then [['a']] ++ [['b']] else [['a']]),
         ⟨[], [], true⟩) :=
  final_unterminated_row.1 ',' '"' false [['a']] ['b'] false (by decide)

/-- Claim C6: on a quote character inside a quoted region the reader
inspects only the already-buffered next character: a buffered quote means an
escaped quote (append one literal quote, consume the lookahead); an empty
buffer or a different buffered character exits quoted mode with no extra
pull from the source. Consequently a quote at a chunk boundary followed by a
quote at the start of the next chunk is classified as closing (and the
second quote re-opens quoting): the chunked input `"a"` / `"b"\n` parses to
the field `ab`, whereas the same characters in one chunk `"a""b"\n` parse to
`a"b`. -/
theorem quote_lookahead_buffer_only :
    (∀ (d q : Char) (row : Row) (field : Field),
        processBuffer d q [q] row field true = .needMore row field false)
    ∧ (∀ (d q c2 : Char) (rest2 : List Char) (row : Row) (field : Field),
        c2 ≠ q →
        processBuffer d q (q :: c2 :: rest2) row field true
          = processBuffer d q (c2 :: rest2) row field false)
    ∧ (∀ (d q : Char) (rest2 : List Char) (row : Row) (field : Field),
        processBuffer d q (q :: q :: rest2) row field true
          = processBuffer d q rest2 row (field ++ [q]) true)
    ∧ (CustomCsvReader.next ',' '"'
        (ReaderState.init [['"', 'a', '"'], ['"', 'b', '"', '\n']])).1
      = some [['a', 'b']]
    ∧ (CustomCsvReader.next ',' '"'
        (ReaderState.init [['"', 'a', '"', '"', 'b', '"', '\n']])).1
      = some [['a', '"', 'b']] := by
  refine ⟨?_, ?_, ?_, by decide, by decide⟩
  · intro d q row field
    exact processBuffer_quote_at_end d q row field
  · intro d q c2 rest2 row field hc2
    exact processBuffer_close_quote rest2 row field hc2
  · intro d q rest2 row field
    exact processBuffer_escaped_quote d q rest2 row field

/-- Witness for C6's quantified conjuncts: a quote followed by a buffered
non-quote closes quoted mode. -/
theorem quote_lookahead_buffer_only_witness :
    processBuffer ',' '"' ['"', 'x'] [] ['a'] true
      = processBuffer ',' '"' ['x'] [] ['a'] false :=
  (quote_lookahead_buffer_only.2.1) ',' '"' 'x' [] [] ['a'] (by decide)

/-! ## Invariants of the produced rows and of end-of-input -/

/-- Any row completed by `processBuffer` contains at least one field (it is
`row ++ [field]` at a terminator). -/
theorem processBuffer_rowDone_ne_nil (d q : Char) (buf : List Char) (row : Row)
    (field : Field) (inQ : Bool) (r : Row) (l : List Char)
    (h : processBuffer d q buf row field inQ = .rowDone r l) : r ≠ [] := by
  induction buf, row, field, inQ using processBuffer.induct d q with
  | case1 row field inQ => exact absurd h (by simp [processBuffer_nil])
  | case2 row field rest2 ih =>
      rw [processBuffer_escaped_quote] at h; exact ih h
  | case3 row field c2 rest2 hc2 ih =>
      rw [processBuffer_close_quote rest2 row field hc2] at h; exact ih h
  | case4 row field =>
      exact absurd h (by simp [processBuffer_quote_at_end])
  | case5 rest row field inQ hq ih =>
      have hfq : inQ = false := by simpa using hq
      subst hfq
      rw [processBuffer_open_quote] at h; exact ih h
  | case6 ch rest row field inQ hq hcd ih =>
      obtain ⟨rfl, rfl⟩ := hcd
      rw [processBuffer_delim rest row field (fun hh => hq hh)] at h
      exact ih h
  | case7 ch rest row field inQ hq hnd hnl =>
      obtain ⟨hc, rfl⟩ := hnl
      rw [processBuffer_newline rest row field hc hq
        (fun hh => hnd ⟨hh, rfl⟩)] at h
      injection h with h1 h2
      subst h1
      simp
  | case8 ch rest row field inQ hq hnd hnn ih =>
      rw [processBuffer_append rest row field inQ hq hnd hnn] at h
      exact ih h

/-- `finishRow` only produces non-empty rows. -/
theorem finishRow_some_ne_nil (row : Row) (field : Field) (inQ : Bool) (r : Row)
    (h : finishRow row field inQ = some r) : r ≠ [] := by
  rw [finishRow] at h
  by_cases h1 : field ≠ [] ∨ inQ = true
  · rw [if_pos h1, if_neg (by simp)] at h
    simp only [Option.some.injEq] at h
    subst h; simp
  · rw [if_neg h1] at h
    by_cases h2 : row = []
    · rw [if_pos h2] at h; exact absurd h (by simp)
    · rw [if_neg h2] at h
      simp only [Option.some.injEq] at h
      subst h; exact h2

/-- Rows produced by the chunk-pulling loop are non-empty. -/
theorem pullRows_some_ne_nil (d q : Char) (chunks : List (List Char)) :
    ∀ (eof : Bool) (row : Row) (field : Field) (inQ : Bool) (r : Row),
      (pullRows d q chunks eof row field inQ).1 = some r → r ≠ [] := by
  induction chunks with
  | nil =>
      intro eof row field inQ r h
      rw [pullRows] at h
      exact finishRow_some_ne_nil row field inQ r h
  | cons c rest ih =>
      intro eof row field inQ r h
      rw [pullRows] at h
      by_cases hc : c = []
      · rw [if_pos hc] at h
        exact finishRow_some_ne_nil row field inQ r h
      · rw [if_neg hc] at h
        cases hp : processBuffer d q c row field inQ with
        | rowDone r2 l =>
            rw [hp] at h
            simp only [Option.some.injEq] at h
            exact h ▸ processBuffer_rowDone_ne_nil d q c row field inQ r2 l hp
        | needMore row2 field2 inQ2 =>
            rw [hp] at h
            exact ih eof row2 field2 inQ2 r h

/-- When the chunk-pulling loop reports end-of-input, the resulting reader
state has an empty buffer and the `eof` flag set. -/
theorem pullRows_none_drained (d q : Char) (chunks : List (List Char)) :
    ∀ (eof : Bool) (row : Row) (field : Field) (inQ : Bool),
      (pullRows d q chunks eof row field inQ).1 = none →
      (pullRows d q chunks eof row field inQ).2.buffer = [] ∧
        (pullRows d q chunks eof row field inQ).2.eof = true := by
  induction chunks with
  | nil => intro eof row field inQ _; rw [pullRows]; exact ⟨rfl, rfl⟩
  | cons c rest ih =>
      intro eof row field inQ h
      rw [pullRows] at h ⊢
      by_cases hc : c = []
      · rw [if_pos hc] at h ⊢; exact ⟨rfl, rfl⟩
      · rw [if_neg hc] at h ⊢
        cases hp : processBuffer d q c row field inQ with
        | rowDone r2 l => rw [hp] at h; exact absurd h (by simp)
        | needMore row2 field2 inQ2 =>
            rw [hp] at h
            exact ih eof row2 field2 inQ2 h

/-- Claim C7: the reader never fails on malformed quoting — an unterminated
quoted field is simply consumed to the end of the input as one field — and
end-of-input is reported only when no row can be produced: whenever
`next` returns `none`, the resulting state has an empty buffer and the
end-of-stream flag set (internally, the `StopIteration` sites require the
row and field accumulators empty and quoting closed), and every later call
keeps reporting end-of-input with the state unchanged. -/
theorem reader_stop_only_when_drained :
    (∀ (d q : Char) (st : ReaderState),
        (CustomCsvReader.next d q st).1 = none →
        (CustomCsvReader.next d q st).2.buffer = [] ∧
        (CustomCsvReader.next d q st).2.eof = true ∧
        CustomCsvReader.next d q (CustomCsvReader.next d q st).2
          = (none, (CustomCsvReader.next d q st).2))
    ∧ (CustomCsvReader.next ',' '"'
        (ReaderState.init [['"', 'a', 'b', 'c']])).1 = some [['a', 'b', 'c']]
    ∧ (CustomCsvReader.next ',' '"'
        (ReaderState.init [['"', 'a', ',', 'b', '\n', 'c']])).1
      = some [['a', ',', 'b', '\n', 'c']]
    ∧ (CustomCsvReader.next ',' '"' (ReaderState.init [['"']])).1
      = some [[]] := by
  refine ⟨?_, by decide, by decide, by decide⟩
  intro d q st h
  have key : (CustomCsvReader.next d q st).2.buffer = [] ∧
      (CustomCsvReader.next d q st).2.eof = true := by
    rw [CustomCsvReader.next] at h ⊢
    by_cases htop : st.eof = true ∧ st.buffer = []
    · rw [if_pos htop]; exact ⟨htop.2, htop.1⟩
    · rw [if_neg htop] at h ⊢
      cases hp : processBuffer d q st.buffer [] [] false with
      | rowDone r l => rw [hp] at h; exact absurd h (by simp)
      | needMore row field inQ =>
          rw [hp] at h
          exact pullRows_none_drained d q st.chunks st.eof row field inQ h
  refine ⟨key.1, key.2, ?_⟩
  rw [CustomCsvReader.next, if_pos ⟨key.2, key.1⟩]

/-- Witness for C7's quantified conjunct, at a drained reader state. -/
theorem reader_stop_only_when_drained_witness :
    (CustomCsvReader.next ',' '"' ⟨[], [], true⟩).1 = none ∧
    (CustomCsvReader.next ',' '"' ⟨[], [], true⟩).2.buffer = [] ∧
    (CustomCsvReader.next ',' '"' ⟨[], [], true⟩).2.eof = true ∧
    CustomCsvReader.next ',' '"' (CustomCsvReader.next ',' '"' ⟨[], [], true⟩).2
      = (none, (CustomCsvReader.next ',' '"' ⟨[], [], true⟩).2) :=
  ⟨by decide, reader_stop_only_when_drained.1 ',' '"' ⟨[], [], true⟩ (by decide)⟩

/-- Claim C8: every row the reader returns contains at least one field: a
line terminator always closes and returns a field even when nothing was
written to it, so an empty line yields the one-field row `[""]`, and
`a,,c\n` yields `["a","","c"]`. -/
theorem next_row_nonempty :
    (∀ (d q : Char) (st : ReaderState) (r : Row),
        (CustomCsvReader.next d q st).1 = some r → r ≠ [])
    ∧ (CustomCsvReader.next ',' '"' (ReaderState.init [['\n']])).1 = some [[]]
    ∧ (CustomCsvReader.next ',' '"'
        (ReaderState.init [['a', ',', ',', 'c', '\n']])).1
      = some [['a'], [], ['c']] := by
  refine ⟨?_, by decide, by decide⟩
  intro d q st r h
  rw [CustomCsvReader.next] at h
  by_cases htop : st.eof = true ∧ st.buffer = []
  · rw [if_pos htop] at h; exact absurd h (by simp)
  · rw [if_neg htop] at h
    cases hp : processBuffer d q st.buffer [] [] false with
    | rowDone r2 l =>
        rw [hp] at h
        simp only [Option.some.injEq] at h
        exact h ▸ processBuffer_rowDone_ne_nil d q st.buffer [] [] false r2 l hp
    | needMore row field inQ =>
        rw [hp] at h
        exact pullRows_some_ne_nil d q st.chunks st.eof row field inQ r h

/-- Witness for C8's quantified conjunct, at the empty-line input. -/
theorem next_row_nonempty_witness : ([[]] : Row) ≠ [] :=
  next_row_nonempty.1 ',' '"' (ReaderState.init [['\n']]) [[]] (by decide)

/-- Claim C9: `writerow` on the empty row emits just a single LF, and reading
that line back produces the one-field row `[""]`, not an empty row — the
write-then-read round trip fails for the empty row, mapping it to `[""]`. -/
theorem empty_row_blank_line :
    (∀ (d q : Char), writerow d q [] = ['\n'])
    ∧ CustomCsvReader.next ',' '"' (ReaderState.init [writerow ',' '"' []])
      = (some [[]], ⟨[], [], false⟩)
    ∧ (some [([] : Field)] : Option Row) ≠ some ([] : Row) := by
  refine ⟨?_, by decide, by decide⟩
  intro d q
  simp [writerow, List.intercalate]

/-- Claim C10: the CRLF lookahead inspects only the already-buffered
character: if a chunk ends in CR and the LF arrives at the start of the next
chunk, the row is terminated at the CR without consuming that LF, and the LF
then yields an extra one-field row containing the empty string — the chunked
stream `a\r` / `\nb\n` parses to `["a"], [""], ["b"]` while the identical
character stream in one chunk `a\r\nb\n` parses to `["a"], ["b"]`. -/
theorem cr_lookahead_buffer_only :
    (∀ (d q : Char) (row : Row) (field : Field),
        '\r' ≠ q → '\r' ≠ d →
        processBuffer d q ['\r'] row field false
          = .rowDone (row ++ [field]) [])
    ∧ CustomCsvReader.next ',' '"'
        (ReaderState.init [['a', '\r'], ['\n', 'b', '\n']])
      = (some [['a']], ⟨[['\n', 'b', '\n']], [], false⟩)
    ∧ CustomCsvReader.next ',' '"' ⟨[['\n', 'b', '\n']], [], false⟩
      = (some [[]], ⟨[], ['b', '\n'], false⟩)
    ∧ CustomCsvReader.next ',' '"' ⟨[], ['b', '\n'], false⟩
      = (some [['b']], ⟨[], [], false⟩)
    ∧ CustomCsvReader.next ',' '"' (ReaderState.init [['a', '\r', '\n', 'b', '\n']])
      = (some [['a']], ⟨[], ['b', '\n'], false⟩) := by
  refine ⟨?_, by decide, by decide, by decide, by decide⟩
  intro d q row field hq hd
  rw [processBuffer_newline [] row field (Or.inr rfl) hq hd]
  simp

/-- Witness for C10's quantified conjunct: a CR at the very end of the
buffer terminates the row with nothing consumed beyond it. -/
theorem cr_lookahead_buffer_only_witness :
    processBuffer ',' '"' ['\r'] [['a']] ['b'] false
      = .rowDone [['a'], ['b']] [] :=
  cr_lookahead_buffer_only.1 ',' '"' [['a']] ['b'] (by decide) (by decide)

end Csv
